import Mathlib

/-!
Shallow embedding of `src/Tarefa.c`, an interactive task manager with an
undo history.

The C program keeps a singly linked list of tasks (`TaskList`, with `head`,
`tail` and a `next_id` counter) and a linked stack of recorded actions
(`ActionStack`).  We model the linked list as a Lean `List Task` (head first,
append at the tail) together with the `next_id` counter, and the action stack
as a `List Action` (top first).  C `int` is modelled as `Int` (C signed
overflow is undefined, so the defined behaviour is exact integer arithmetic);
C strings are `String`; the possibly-NULL `task_description` pointer of an
action is `Option String`.  The `printf` diagnostics of each operation are
modelled as explicit result values.
-/

namespace Tarefa

/-- `struct Task` from Tarefa.c (without the intrusive `next` pointer, which
is the list structure itself). -/
structure Task where
  id : Int
  description : String
  completed : Bool
deriving DecidableEq

/-- `TaskList` from Tarefa.c: the linked list (head first) plus `next_id`.
The `tail` pointer is an O(1) optimisation for appending and carries no
extra state. -/
structure TaskList where
  tasks : List Task
  next_id : Int
deriving DecidableEq

/-- `ActionType` from Tarefa.c. -/
inductive ActionType where
  | ACTION_ADD
  | ACTION_COMPLETE
  | ACTION_REMOVE
deriving DecidableEq

/-- `struct Action` from Tarefa.c: `task_description` is a possibly-NULL
`char *`, hence `Option String`. -/
structure Action where
  type : ActionType
  task_id : Int
  task_description : Option String
  was_completed : Bool
deriving DecidableEq

/-- `ActionStack`: the stack of actions, top first. -/
abbrev ActionStack := List Action

/-- `initTaskList`: empty list, ids start at 1. -/
def initTaskList : TaskList := ⟨[], 1⟩

/-- `createTask`: a fresh task is not completed. -/
def createTask (id : Int) (description : String) : Task :=
  ⟨id, description, false⟩

/-- `addTask`: appends `createTask(list->next_id++, description)` at the
tail. -/
def addTask (list : TaskList) (description : String) : TaskList :=
  { tasks := list.tasks ++ [createTask list.next_id description]
    next_id := list.next_id + 1 }

/-- The three `printf` branches of `completeTask` (not-found, already
concluded, marked as concluded). -/
inductive CompleteResult where
  | not_found
  | already_completed
  | toggled
deriving DecidableEq

/-- The traversal loop of `completeTask`: walks the list from the head,
on the first task with the given id either reports it already completed
(no mutation) or sets its flag; reports not-found past the end. -/
def completeTasks : List Task → Int → List Task × CompleteResult
  | [], _ => ([], .not_found)
  | t :: ts, id =>
    if t.id = id then
      if t.completed then (t :: ts, .already_completed)
      else ({ t with completed := true } :: ts, .toggled)
    else
      let r := completeTasks ts id
      (t :: r.1, r.2)

/-- `completeTask`: returns the mutated list and the C `bool` return value,
which is `true` only in the branch that flips a pending task's flag. -/
def completeTask (list : TaskList) (id : Int) : TaskList × Bool :=
  let r := completeTasks list.tasks id
  (⟨r.1, list.next_id⟩, match r.2 with | .toggled => true | _ => false)

/-- The traversal loop of `removeTask`: unlinks the first task with the
given id (fixing up `head`/`tail`) and returns it; `none` when absent. -/
def removeTasks : List Task → Int → List Task × Option Task
  | [], _ => ([], none)
  | t :: ts, id =>
    if t.id = id then (ts, some t)
    else
      let r := removeTasks ts id
      (t :: r.1, r.2)

/-- `removeTask`: removes the first task with the given id from the list and
returns the unlinked node (its snapshot), or `none` if not found. -/
def removeTask (list : TaskList) (id : Int) : TaskList × Option Task :=
  let r := removeTasks list.tasks id
  (⟨r.1, list.next_id⟩, r.2)

/-- `pushAction`: builds an `Action` record and pushes it on top. -/
def pushAction (stack : ActionStack) (type : ActionType) (task_id : Int)
    (task_description : Option String) (was_completed : Bool) : ActionStack :=
  ⟨type, task_id, task_description, was_completed⟩ :: stack

/-- `popAction`: pops the top action, `none` on an empty stack. -/
def popAction : ActionStack → Option Action × ActionStack
  | [] => (none, [])
  | a :: rest => (some a, rest)

/-- The lookup loop in `main` case 3 (and in the `ACTION_COMPLETE` branch of
`undoLastAction`): first task with the given id. -/
def findTask : List Task → Int → Option Task
  | [], _ => none
  | t :: ts, id => if t.id = id then some t else findTask ts id

/-- The `ACTION_COMPLETE` branch's loop of `undoLastAction`: set the
completed flag of the first task with the given id; the `Bool` records
whether the id was found (`current != NULL`). -/
def setCompleted : List Task → Int → Bool → List Task × Bool
  | [], _, _ => ([], false)
  | t :: ts, id, b =>
    if t.id = id then ({ t with completed := b } :: ts, true)
    else
      let r := setCompleted ts id b
      (t :: r.1, r.2)

/-- The `printf` outcomes of `undoLastAction`: nothing to undo, each
successful reversal, and the two "não encontrada" error branches. -/
inductive UndoResult where
  | nothing_to_undo
  | undone_add (id : Int)
  | inconsistent_add (id : Int)
  | undone_complete (id : Int)
  | inconsistent_complete (id : Int)
  | undone_remove (id : Int)
deriving DecidableEq

/-- `undoLastAction`: pops the last action and applies its inverse.
* empty stack: report nothing to undo, no mutation;
* `ACTION_ADD`: unlink the task with the recorded id (the same first-match
  removal loop as `removeTask`); error if absent;
* `ACTION_COMPLETE`: restore the recorded previous flag on the first task
  with the id; error if absent;
* `ACTION_REMOVE`: recreate the task from the recorded snapshot, append it
  at the tail, and bump `next_id` past the re-added id if necessary.
The popped action is freed (consumed) in every branch.  (In the C code a
`NULL` description in an `ACTION_REMOVE` record would be undefined
behaviour in `strdup`; dispatch only ever records removals with a
description, so the `getD ""` default is never reached from `main`.) -/
def undoLastAction (list : TaskList) (stack : ActionStack) :
    TaskList × ActionStack × UndoResult :=
  match stack with
  | [] => (list, [], .nothing_to_undo)
  | a :: rest =>
    match a.type with
    | .ACTION_ADD =>
      let r := removeTasks list.tasks a.task_id
      match r.2 with
      | some _ => (⟨r.1, list.next_id⟩, rest, .undone_add a.task_id)
      | none => (list, rest, .inconsistent_add a.task_id)
    | .ACTION_COMPLETE =>
      let r := setCompleted list.tasks a.task_id a.was_completed
      if r.2 then (⟨r.1, list.next_id⟩, rest, .undone_complete a.task_id)
      else (list, rest, .inconsistent_complete a.task_id)
    | .ACTION_REMOVE =>
      let readded := { createTask a.task_id (a.task_description.getD "") with
                       completed := a.was_completed }
      let nid := if list.next_id ≤ a.task_id then a.task_id + 1
                 else list.next_id
      (⟨list.tasks ++ [readded], nid⟩, rest, .undone_remove a.task_id)

/-! ### The dispatcher (`main`)

`main` owns the pairing of store mutation with history recording: case 1
pushes an `ACTION_ADD` after `addTask`, case 3 records the prior flag and
pushes an `ACTION_COMPLETE` only when `completeTask` returned `true`,
case 4 pushes an `ACTION_REMOVE` built from the removed node's snapshot,
case 5 calls `undoLastAction`. -/

/-- The whole program state: task store plus undo history. -/
structure State where
  list : TaskList
  stack : ActionStack
deriving DecidableEq

/-- The state after `initTaskList` / `initActionStack`. -/
def initState : State := ⟨initTaskList, []⟩

/-- `main` case 1: `addTask` then push `ACTION_ADD` with
`myTasks.next_id - 1` (the id just assigned) and the description. -/
def opAdd (s : State) (description : String) : State :=
  let l := addTask s.list description
  ⟨l, pushAction s.stack .ACTION_ADD (l.next_id - 1) (some description) false⟩

/-- `main` case 3: look up the task's current flag, call `completeTask`,
and push `ACTION_COMPLETE` (with a NULL description and the prior flag)
only when it returned `true`. -/
def opComplete (s : State) (id : Int) : State :=
  let was := match findTask s.list.tasks id with
             | some t => t.completed
             | none => false
  let r := completeTask s.list id
  if r.2 then ⟨r.1, pushAction s.stack .ACTION_COMPLETE id none was⟩
  else ⟨r.1, s.stack⟩

/-- `main` case 4: `removeTask`, and when a node was removed push
`ACTION_REMOVE` with its id, description and flag before freeing it. -/
def opRemove (s : State) (id : Int) : State :=
  let r := removeTask s.list id
  match r.2 with
  | some t =>
      ⟨r.1, pushAction s.stack .ACTION_REMOVE t.id (some t.description)
              t.completed⟩
  | none => ⟨r.1, s.stack⟩

/-- `main` case 5: `undoLastAction`, with its reported outcome. -/
def opUndo (s : State) : State × UndoResult :=
  let r := undoLastAction s.list s.stack
  (⟨r.1, r.2.1⟩, r.2.2)

/-! ### Command traces

For the id-freshness invariant ("`next_id` exceeds every identifier ever
issued") we run sequences of dispatcher commands and collect the ids the
run hands out: each `add` issues the current `next_id`, and an undo of a
remove re-issues the recorded id. -/

/-- One dispatcher command. -/
inductive Cmd where
  | add (description : String)
  | complete (id : Int)
  | remove (id : Int)
  | undo
deriving DecidableEq

/-- Execute one command. -/
def stepCmd (s : State) : Cmd → State
  | .add d => opAdd s d
  | .complete id => opComplete s id
  | .remove id => opRemove s id
  | .undo => (opUndo s).1

/-- Execute a command list in order. -/
def runCmds (s : State) : List Cmd → State
  | [] => s
  | c :: cs => runCmds (stepCmd s c) cs

/-- The ids one command issues from state `s`: `add` issues `next_id`;
undoing an `ACTION_REMOVE` re-issues the recorded id. -/
def issuedOne (s : State) : Cmd → List Int
  | .add _ => [s.list.next_id]
  | .undo =>
      match s.stack with
      | a :: _ =>
          match a.type with
          | .ACTION_REMOVE => [a.task_id]
          | _ => []
      | [] => []
  | _ => []

/-- All ids issued along a command list run from `s`. -/
def issuedIds (s : State) : List Cmd → List Int
  | [] => []
  | c :: cs => issuedOne s c ++ issuedIds (stepCmd s c) cs

/-- The ids assigned by a sequence of consecutive `addTask` calls. -/
def addedIds (l : TaskList) : List String → List Int
  | [] => []
  | d :: ds => l.next_id :: addedIds (addTask l d) ds

/-! ### Lemmas about the traversal loops -/

theorem findTask_eq_none {l : List Task} {id : Int}
    (h : ∀ t ∈ l, t.id ≠ id) : findTask l id = none := by
  induction l with
  | nil => rfl
  | cons t ts ih =>
    simp only [findTask]
    rw [if_neg (h t (List.mem_cons_self t ts))]
    exact ih fun u hu => h u (List.mem_cons_of_mem t hu)

theorem findTask_none_forall {l : List Task} {id : Int}
    (h : findTask l id = none) : ∀ t ∈ l, t.id ≠ id := by
  induction l with
  | nil => intro t ht; cases ht
  | cons t ts ih =>
    intro u hu
    simp only [findTask] at h
    by_cases hid : t.id = id
    · rw [if_pos hid] at h; cases h
    · rw [if_neg hid] at h
      rcases List.mem_cons.mp hu with h1 | h1
      · subst h1; exact hid
      · exact ih h u h1

theorem findTask_found {pre : List Task} (t : Task) (post : List Task)
    {id : Int} (hpre : ∀ u ∈ pre, u.id ≠ id) (ht : t.id = id) :
    findTask (pre ++ t :: post) id = some t := by
  induction pre with
  | nil => simp [findTask, ht]
  | cons u us ih =>
    simp only [List.cons_append, findTask]
    rw [if_neg (hpre u (List.mem_cons_self u us))]
    exact ih fun v hv => hpre v (List.mem_cons_of_mem u hv)

theorem findTask_decomp {l : List Task} {id : Int} {t : Task}
    (h : findTask l id = some t) :
    ∃ pre post, l = pre ++ t :: post ∧ t.id = id ∧ ∀ u ∈ pre, u.id ≠ id := by
  induction l with
  | nil => cases h
  | cons u us ih =>
    simp only [findTask] at h
    by_cases hid : u.id = id
    · rw [if_pos hid] at h
      injection h with h
      subst h
      exact ⟨[], us, rfl, hid, by intro v hv; cases hv⟩
    · rw [if_neg hid] at h
      obtain ⟨pre, post, hl, hid', hpre⟩ := ih h
      refine ⟨u :: pre, post, by rw [hl]; rfl, hid', ?_⟩
      intro v hv
      rcases List.mem_cons.mp hv with h1 | h1
      · subst h1; exact hid
      · exact hpre v h1

/-- Any task in the list sits after a prefix in which its id does not
occur; the first task with that id is either the task itself or leaves the
task among the others. -/
theorem mem_decomp {l : List Task} {t : Task} (h : t ∈ l) :
    ∃ pre r post, l = pre ++ r :: post ∧ r.id = t.id ∧
      (∀ u ∈ pre, u.id ≠ t.id) ∧ (r = t ∨ t ∈ pre ++ post) := by
  induction l with
  | nil => cases h
  | cons u us ih =>
    by_cases hid : u.id = t.id
    · refine ⟨[], u, us, rfl, hid, ?_, ?_⟩
      · intro v hv; cases hv
      · rcases List.mem_cons.mp h with h1 | h1
        · exact Or.inl h1.symm
        · exact Or.inr h1
    · have ht : t ∈ us := by
        rcases List.mem_cons.mp h with h1 | h1
        · exact absurd (congrArg Task.id h1.symm) hid
        · exact h1
      obtain ⟨pre, r, post, hl, hrid, hpre, hor⟩ := ih ht
      refine ⟨u :: pre, r, post, by rw [hl]; rfl, hrid, ?_, ?_⟩
      · intro v hv
        rcases List.mem_cons.mp hv with h1 | h1
        · subst h1; exact hid
        · exact hpre v h1
      · rcases hor with h1 | h1
        · exact Or.inl h1
        · exact Or.inr (by
            rcases List.mem_append.mp h1 with h2 | h2
            · exact List.mem_append.mpr (Or.inl (List.mem_cons_of_mem u h2))
            · exact List.mem_append.mpr (Or.inr h2))

theorem removeTasks_eq_none {l : List Task} {id : Int}
    (h : ∀ t ∈ l, t.id ≠ id) : removeTasks l id = (l, none) := by
  induction l with
  | nil => rfl
  | cons t ts ih =>
    simp only [removeTasks]
    rw [if_neg (h t (List.mem_cons_self t ts))]
    rw [ih fun u hu => h u (List.mem_cons_of_mem t hu)]

theorem removeTasks_found {pre : List Task} (t : Task) (post : List Task)
    {id : Int} (hpre : ∀ u ∈ pre, u.id ≠ id) (ht : t.id = id) :
    removeTasks (pre ++ t :: post) id = (pre ++ post, some t) := by
  induction pre with
  | nil => simp [removeTasks, ht]
  | cons u us ih =>
    simp only [List.cons_append, removeTasks, List.append_eq]
    rw [if_neg (hpre u (List.mem_cons_self u us))]
    rw [ih fun v hv => hpre v (List.mem_cons_of_mem u hv)]

theorem completeTasks_eq_not_found {l : List Task} {id : Int}
    (h : ∀ t ∈ l, t.id ≠ id) : completeTasks l id = (l, .not_found) := by
  induction l with
  | nil => rfl
  | cons t ts ih =>
    simp only [completeTasks]
    rw [if_neg (h t (List.mem_cons_self t ts))]
    rw [ih fun u hu => h u (List.mem_cons_of_mem t hu)]

theorem completeTasks_found_completed {pre : List Task} (t : Task)
    (post : List Task) {id : Int} (hpre : ∀ u ∈ pre, u.id ≠ id)
    (ht : t.id = id) (hc : t.completed = true) :
    completeTasks (pre ++ t :: post) id =
      (pre ++ t :: post, .already_completed) := by
  induction pre with
  | nil => simp [completeTasks, ht, hc]
  | cons u us ih =>
    simp only [List.cons_append, completeTasks, List.append_eq]
    rw [if_neg (hpre u (List.mem_cons_self u us))]
    rw [ih fun v hv => hpre v (List.mem_cons_of_mem u hv)]

theorem completeTasks_found_pending {pre : List Task} (t : Task)
    (post : List Task) {id : Int} (hpre : ∀ u ∈ pre, u.id ≠ id)
    (ht : t.id = id) (hc : t.completed = false) :
    completeTasks (pre ++ t :: post) id =
      (pre ++ { t with completed := true } :: post, .toggled) := by
  induction pre with
  | nil => simp [completeTasks, ht, hc]
  | cons u us ih =>
    simp only [List.cons_append, completeTasks, List.append_eq]
    rw [if_neg (hpre u (List.mem_cons_self u us))]
    rw [ih fun v hv => hpre v (List.mem_cons_of_mem u hv)]

theorem setCompleted_eq_not_found {l : List Task} {id : Int} {b : Bool}
    (h : ∀ t ∈ l, t.id ≠ id) : setCompleted l id b = (l, false) := by
  induction l with
  | nil => rfl
  | cons t ts ih =>
    simp only [setCompleted]
    rw [if_neg (h t (List.mem_cons_self t ts))]
    rw [ih fun u hu => h u (List.mem_cons_of_mem t hu)]

theorem setCompleted_found {pre : List Task} (t : Task) (post : List Task)
    {id : Int} {b : Bool} (hpre : ∀ u ∈ pre, u.id ≠ id) (ht : t.id = id) :
    setCompleted (pre ++ t :: post) id b =
      (pre ++ { t with completed := b } :: post, true) := by
  induction pre with
  | nil => simp [setCompleted, ht]
  | cons u us ih =>
    simp only [List.cons_append, setCompleted, List.append_eq]
    rw [if_neg (hpre u (List.mem_cons_self u us))]
    rw [ih fun v hv => hpre v (List.mem_cons_of_mem u hv)]

/-! ### `next_id` monotonicity: no operation ever lowers the counter -/

theorem completeTask_next_id (l : TaskList) (id : Int) :
    (completeTask l id).1.next_id = l.next_id := rfl

theorem removeTask_next_id (l : TaskList) (id : Int) :
    (removeTask l id).1.next_id = l.next_id := rfl

theorem opAdd_next_id (s : State) (d : String) :
    (opAdd s d).list.next_id = s.list.next_id + 1 := rfl

theorem opComplete_next_id (s : State) (id : Int) :
    (opComplete s id).list.next_id = s.list.next_id := by
  simp only [opComplete]
  split <;> rfl

theorem opRemove_next_id (s : State) (id : Int) :
    (opRemove s id).list.next_id = s.list.next_id := by
  simp only [opRemove]
  split <;> rfl

theorem opUndo_next_id_le (s : State) :
    s.list.next_id ≤ (opUndo s).1.list.next_id := by
  obtain ⟨l, stack⟩ := s
  cases stack with
  | nil => exact le_refl _
  | cons a rest =>
    obtain ⟨type, tid, td, wc⟩ := a
    cases type with
    | ACTION_ADD =>
      simp only [opUndo, undoLastAction]
      cases hr : (removeTasks l.tasks tid).2 <;> simp [hr]
    | ACTION_COMPLETE =>
      simp only [opUndo, undoLastAction]
      split <;> simp
    | ACTION_REMOVE =>
      simp only [opUndo, undoLastAction]
      split <;> omega

theorem stepCmd_next_id_le (s : State) (c : Cmd) :
    s.list.next_id ≤ (stepCmd s c).list.next_id := by
  cases c with
  | add d =>
    rw [stepCmd, opAdd_next_id]
    omega
  | complete id => rw [stepCmd, opComplete_next_id]
  | remove id => rw [stepCmd, opRemove_next_id]
  | undo => exact opUndo_next_id_le s

theorem runCmds_next_id_le (cs : List Cmd) (s : State) :
    s.list.next_id ≤ (runCmds s cs).list.next_id := by
  induction cs generalizing s with
  | nil => exact le_refl _
  | cons c cs ih =>
    exact le_trans (stepCmd_next_id_le s c) (ih (stepCmd s c))

theorem issuedOne_lt (s : State) (c : Cmd) (id : Int)
    (h : id ∈ issuedOne s c) : id < (stepCmd s c).list.next_id := by
  cases c with
  | add d =>
    simp only [issuedOne, List.mem_singleton] at h
    subst h
    rw [stepCmd, opAdd_next_id]
    omega
  | complete id2 => simp [issuedOne] at h
  | remove id2 => simp [issuedOne] at h
  | undo =>
    obtain ⟨l, stack⟩ := s
    cases stack with
    | nil => simp [issuedOne] at h
    | cons a rest =>
      obtain ⟨type, tid, td, wc⟩ := a
      cases type with
      | ACTION_ADD => simp [issuedOne] at h
      | ACTION_COMPLETE => simp [issuedOne] at h
      | ACTION_REMOVE =>
        simp only [issuedOne, List.mem_singleton] at h
        subst h
        simp only [stepCmd, opUndo, undoLastAction]
        split <;> omega

/-- C3: invariant preserved by every operation: along any run of dispatcher
commands, `next_id` ends strictly greater than every identifier issued
during the run — both the ids assigned by `add` and the ids re-issued when
an undo of a remove re-adds a task.  Moreover the undo-of-remove
reinsertion sets `next_id` to `max(next_id, id+1)`, so a later `add` can
never assign an id equal to a reinserted task's id. -/
theorem next_id_exceeds_issued :
    (∀ (s : State) (cs : List Cmd) (id : Int), id ∈ issuedIds s cs →
        id < (runCmds s cs).list.next_id) ∧
    (∀ (l : TaskList) (a : Action) (rest : ActionStack),
        a.type = .ACTION_REMOVE →
        (undoLastAction l (a :: rest)).1.next_id =
          max l.next_id (a.task_id + 1)) := by
  constructor
  · intro s cs
    induction cs generalizing s with
    | nil => intro id h; simp [issuedIds] at h
    | cons c cs ih =>
      intro id h
      simp only [issuedIds, List.mem_append] at h
      rcases h with h | h
      · exact lt_of_lt_of_le (issuedOne_lt s c id h)
          (runCmds_next_id_le cs (stepCmd s c))
      · exact ih (stepCmd s c) id h
  · intro l a rest htype
    obtain ⟨type, tid, td, wc⟩ := a
    simp only [Action.type] at htype
    subst htype
    simp only [undoLastAction]
    split <;> simp <;> omega

/-- Witness for `next_id_exceeds_issued` at the one-command run
`[add "a"]`, which issues id 1. -/
theorem next_id_exceeds_issued_witness :
    (1 : Int) ∈ issuedIds initState [Cmd.add "a"] ∧
    (1 : Int) < (runCmds initState [Cmd.add "a"]).list.next_id :=
  ⟨by decide, next_id_exceeds_issued.1 initState [Cmd.add "a"] 1 (by decide)⟩

/-! ### C7: `add` assigns strictly increasing ids -/

theorem addedIds_le (ds : List String) (l : TaskList) :
    ∀ i ∈ addedIds l ds, l.next_id ≤ i := by
  induction ds generalizing l with
  | nil => intro i h; simp [addedIds] at h
  | cons d ds ih =>
    intro i h
    simp only [addedIds, List.mem_cons] at h
    rcases h with h | h
    · subst h; exact le_refl _
    · have h2 := ih (addTask l d) i h
      simp only [addTask] at h2
      omega

theorem addedIds_pairwise (ds : List String) (l : TaskList) :
    List.Pairwise (fun a b => a < b) (addedIds l ds) := by
  induction ds generalizing l with
  | nil => exact List.Pairwise.nil
  | cons d ds ih =>
    refine List.Pairwise.cons ?_ (ih (addTask l d))
    intro i h
    have h2 := addedIds_le ds (addTask l d) i h
    simp only [addTask] at h2
    omega

/-- C7: `addTask` always succeeds: it assigns `id = next_id`, appends the
new pending task at the tail and increments `next_id`; along any sequence
of `add` calls the assigned ids are strictly increasing, hence unique. -/
theorem add_assigns_increasing_ids (l : TaskList) (d : String)
    (ds : List String) :
    addTask l d = ⟨l.tasks ++ [⟨l.next_id, d, false⟩], l.next_id + 1⟩ ∧
    List.Pairwise (fun a b => a < b) (addedIds l ds) ∧
    (addedIds l ds).Nodup :=
  ⟨rfl, addedIds_pairwise ds l,
    List.Pairwise.imp (fun h => ne_of_lt h) (addedIds_pairwise ds l)⟩

/-! ### C1: undo is strictly LIFO -/

/-- C1: undo is strictly LIFO.  An undo on an empty history reports
nothing-to-undo and changes neither the task store nor the history; and in
the spec's scenario — A1 `add "x"`, A2 `remove` of that task, A3 `add "y"`
— three successive undos reverse A3 (removing task 2), then A2
(re-adding task 1 `"x"`), then A1 (removing task 1, emptying the store and
the history), and a fourth undo reports nothing-to-undo and leaves the
state unchanged. -/
theorem undo_is_lifo :
    (∀ s : State, s.stack = [] → opUndo s = (s, .nothing_to_undo)) ∧
    (let s1 := opAdd initState "x"
     let s2 := opRemove s1 1
     let s3 := opAdd s2 "y"
     let u1 := opUndo s3
     let u2 := opUndo u1.1
     let u3 := opUndo u2.1
     let u4 := opUndo u3.1
     u1.2 = .undone_add 2 ∧ u1.1.list.tasks = [] ∧
     u2.2 = .undone_remove 1 ∧ u2.1.list.tasks = [⟨1, "x", false⟩] ∧
     u3.2 = .undone_add 1 ∧ u3.1.list.tasks = [] ∧ u3.1.stack = [] ∧
     u4 = (u3.1, .nothing_to_undo)) := by
  constructor
  · intro s h
    obtain ⟨l, stack⟩ := s
    simp only at h
    subst h
    rfl
  · decide

/-- Witness for `undo_is_lifo`: undo on the freshly initialised state. -/
theorem undo_is_lifo_witness :
    opUndo initState = (initState, UndoResult.nothing_to_undo) :=
  undo_is_lifo.1 initState rfl

/-! ### C4: add then undo -/

/-- C4 counterexample: from the initial state, `add "a"` followed by undo
does restore the empty task list, but `next_id` stays 2 — the undo of an
add never restores the pre-add `next_id` of 1 (only undo-of-remove ever
touches the counter, and only upward). -/
theorem add_undo_next_id_cex :
    (opUndo (opAdd initState "a")).1.list.tasks = initState.list.tasks ∧
    (opUndo (opAdd initState "a")).1.list.next_id = 2 ∧
    initState.list.next_id = 1 := by decide

/-- C4 amended: for every state in which no present task already carries
the id about to be assigned (true of every state the program can reach),
`add` followed immediately by undo restores exactly the prior tasks and
the prior history, while `next_id` remains at its post-add value
`next_id + 1` — it is not rolled back to its pre-add value, preserving the
never-reuse-an-id invariant. -/
theorem add_undo_restores_tasks (s : State) (d : String)
    (h : ∀ t ∈ s.list.tasks, t.id ≠ s.list.next_id) :
    opUndo (opAdd s d) =
      (⟨⟨s.list.tasks, s.list.next_id + 1⟩, s.stack⟩,
        .undone_add s.list.next_id) := by
  obtain ⟨⟨tasks, n⟩, stack⟩ := s
  simp only at h
  have harith : n + 1 - 1 = n := by omega
  have hrm : removeTasks (tasks ++ [⟨n, d, false⟩]) n =
      (tasks, some ⟨n, d, false⟩) := by
    have h2 := removeTasks_found ⟨n, d, false⟩ [] (fun u hu => h u hu) rfl
    simpa using h2
  simp only [opUndo, opAdd, addTask, createTask, pushAction, undoLastAction,
    harith, hrm]

/-- Witness for `add_undo_restores_tasks` at the initial state. -/
theorem add_undo_restores_tasks_witness :
    opUndo (opAdd initState "a") =
      (⟨⟨initState.list.tasks, initState.list.next_id + 1⟩,
          initState.stack⟩,
        UndoResult.undone_add initState.list.next_id) :=
  add_undo_restores_tasks initState "a" (by decide)

/-! ### C2: remove then undo -/

theorem opRemove_found {s : State} {id : Int} {rem : List Task} {r : Task}
    (hrm : removeTasks s.list.tasks id = (rem, some r)) :
    opRemove s id =
      ⟨⟨rem, s.list.next_id⟩,
        ⟨.ACTION_REMOVE, r.id, some r.description, r.completed⟩ ::
          s.stack⟩ := by
  simp [opRemove, removeTask, pushAction, hrm]

theorem opUndo_remove_action (l : TaskList) (stack : ActionStack) (id : Int)
    (d : String) (c : Bool) :
    opUndo ⟨l, ⟨.ACTION_REMOVE, id, some d, c⟩ :: stack⟩ =
      (⟨⟨l.tasks ++ [⟨id, d, c⟩],
          if l.next_id ≤ id then id + 1 else l.next_id⟩, stack⟩,
        .undone_remove id) := by
  simp [opUndo, undoLastAction, createTask]

/-- C2: for every state and every task present in its store, removing that
task's id and then undoing yields a store that again contains a task with
the same id, description and completed flag; concretely the undo appends
the removed snapshot at the tail of the post-remove list, and the history
returns to its pre-remove contents. -/
theorem remove_then_undo_restores (s : State) (t : Task)
    (h : t ∈ s.list.tasks) :
    (∃ u ∈ (opUndo (opRemove s t.id)).1.list.tasks,
        u.id = t.id ∧ u.description = t.description ∧
          u.completed = t.completed) ∧
    (∃ r, (removeTask s.list t.id).2 = some r ∧
        (opUndo (opRemove s t.id)).1.list.tasks =
          (removeTask s.list t.id).1.tasks ++
            [⟨r.id, r.description, r.completed⟩]) ∧
    (opUndo (opRemove s t.id)).1.stack = s.stack := by
  obtain ⟨pre, r, post, hl, hrid, hpre, hor⟩ := mem_decomp h
  have hrm : removeTasks s.list.tasks t.id = (pre ++ post, some r) := by
    rw [hl]
    exact removeTasks_found r post hpre hrid
  have hop := opRemove_found hrm
  have hundo := opUndo_remove_action ⟨pre ++ post, s.list.next_id⟩ s.stack
    r.id r.description r.completed
  rw [hop, hundo]
  refine ⟨?_, ?_, rfl⟩
  · rcases hor with hor | hor
    · subst hor
      exact ⟨⟨r.id, r.description, r.completed⟩,
        List.mem_append.mpr (Or.inr (List.mem_singleton.mpr rfl)),
        hrid, rfl, rfl⟩
    · exact ⟨t, List.mem_append.mpr (Or.inl hor), rfl, rfl, rfl⟩
  · refine ⟨r, ?_, ?_⟩
    · simp [removeTask, hrm]
    · simp [removeTask, hrm]

/-- Witness for `remove_then_undo_restores`: a one-task store. -/
theorem remove_then_undo_restores_witness :
    ∃ u ∈ (opUndo (opRemove (⟨⟨[⟨1, "a", true⟩], 2⟩, []⟩ : State)
        (1 : Int))).1.list.tasks,
      u.id = (1 : Int) ∧ u.description = "a" ∧ u.completed = true :=
  (remove_then_undo_restores ⟨⟨[⟨1, "a", true⟩], 2⟩, []⟩ ⟨1, "a", true⟩
    (by decide)).1

/-! ### C5 / C10: the three outcomes of complete -/

theorem completeTask_snd (l : TaskList) (id : Int) :
    (completeTask l id).2 = true ↔
      (completeTasks l.tasks id).2 = .toggled := by
  simp only [completeTask]
  cases h : (completeTasks l.tasks id).2 <;> simp [h]

/-- C5: `complete` has exactly three outcomes: with no task carrying the
id it reports not-found and mutates nothing; on an already-completed task
it reports already-completed and mutates nothing; on a pending task it
sets the flag to true (and only then).  Hence a second `complete` on the
same id reports already-completed, the flag is true after both calls, and
the second call mutates nothing. -/
theorem complete_three_outcomes (l : TaskList) (id : Int) :
    ((∀ t ∈ l.tasks, t.id ≠ id) →
        completeTasks l.tasks id = (l.tasks, .not_found)) ∧
    (∀ t, findTask l.tasks id = some t → t.completed = true →
        completeTasks l.tasks id = (l.tasks, .already_completed)) ∧
    (∀ t, findTask l.tasks id = some t → t.completed = false →
        (completeTasks l.tasks id).2 = .toggled ∧
        findTask (completeTasks l.tasks id).1 id =
          some { t with completed := true } ∧
        (completeTasks (completeTasks l.tasks id).1 id).2 =
          .already_completed ∧
        (completeTasks (completeTasks l.tasks id).1 id).1 =
          (completeTasks l.tasks id).1) := by
  refine ⟨fun h => completeTasks_eq_not_found h, ?_, ?_⟩
  · intro t hf hc
    obtain ⟨pre, post, hl, htid, hpre⟩ := findTask_decomp hf
    rw [hl]
    exact completeTasks_found_completed t post hpre htid hc
  · intro t hf hc
    obtain ⟨pre, post, hl, htid, hpre⟩ := findTask_decomp hf
    have htid2 : ({ t with completed := true } : Task).id = id := htid
    have h1 : completeTasks l.tasks id =
        (pre ++ { t with completed := true } :: post, .toggled) := by
      rw [hl]
      exact completeTasks_found_pending t post hpre htid hc
    have h2 := findTask_found { t with completed := true } post hpre htid2
    have h3 := completeTasks_found_completed { t with completed := true }
      post hpre htid2 rfl
    rw [h1]
    exact ⟨rfl, h2, by rw [h3], by rw [h3]⟩

/-- Witness for `complete_three_outcomes` on the pending-task branch. -/
theorem complete_three_outcomes_witness :
    (completeTasks (⟨[⟨1, "a", false⟩], 2⟩ : TaskList).tasks 1).2 =
      CompleteResult.toggled ∧
    findTask (completeTasks (⟨[⟨1, "a", false⟩], 2⟩ :
        TaskList).tasks 1).1 1 = some ⟨1, "a", true⟩ ∧
    (completeTasks (completeTasks (⟨[⟨1, "a", false⟩], 2⟩ :
        TaskList).tasks 1).1 1).2 = CompleteResult.already_completed ∧
    (completeTasks (completeTasks (⟨[⟨1, "a", false⟩], 2⟩ :
        TaskList).tasks 1).1 1).1 =
      (completeTasks (⟨[⟨1, "a", false⟩], 2⟩ : TaskList).tasks 1).1 :=
  (complete_three_outcomes ⟨[⟨1, "a", false⟩], 2⟩ 1).2.2 ⟨1, "a", false⟩
    (by decide) rfl

/-- C10 (implicit): the `bool` completeTask returns is `true` exactly when
a pending task with the id was flipped to completed; it is the same value,
`false`, both when the id is absent and when the task was already
completed — from the return value alone the two cases cannot be told
apart — and in both cases the dispatcher pushes nothing onto the undo
history. -/
theorem complete_return_indistinct (s : State) (id : Int) :
    ((completeTask s.list id).2 = true ↔
      ∃ t, findTask s.list.tasks id = some t ∧ t.completed = false) ∧
    (findTask s.list.tasks id = none →
      (completeTask s.list id).2 = false ∧
        (opComplete s id).stack = s.stack) ∧
    (∀ t, findTask s.list.tasks id = some t → t.completed = true →
      (completeTask s.list id).2 = false ∧
        (opComplete s id).stack = s.stack) := by
  refine ⟨?_, ?_, ?_⟩
  · rw [completeTask_snd]
    constructor
    · intro h
      cases hf : findTask s.list.tasks id with
      | none =>
        rw [completeTasks_eq_not_found (findTask_none_forall hf)] at h
        cases h
      | some t =>
        cases hc : t.completed with
        | false => exact ⟨t, rfl, hc⟩

        | true =>
          obtain ⟨pre, post, hl, htid, hpre⟩ := findTask_decomp hf
          rw [hl, completeTasks_found_completed t post hpre htid hc] at h
          cases h
    · rintro ⟨t, hf, hc⟩
      obtain ⟨pre, post, hl, htid, hpre⟩ := findTask_decomp hf
      rw [hl, completeTasks_found_pending t post hpre htid hc]
  · intro hf
    have hnf := completeTasks_eq_not_found (findTask_none_forall hf)
    constructor
    · simp [completeTask, hnf]
    · simp [opComplete, completeTask, hnf]
  · intro t hf hc
    obtain ⟨pre, post, hl, htid, hpre⟩ := findTask_decomp hf
    have hac : completeTasks s.list.tasks id =
        (s.list.tasks, .already_completed) := by
      rw [hl]
      exact completeTasks_found_completed t post hpre htid hc
    constructor
    · simp [completeTask, hac]
    · simp [opComplete, completeTask, hac]

/-- Witness for `complete_return_indistinct`: id 1 is absent from the
initial store, so the return is `false` and nothing is pushed. -/
theorem complete_return_indistinct_witness :
    (completeTask initState.list 1).2 = false ∧
      (opComplete initState 1).stack = initState.stack :=
  (complete_return_indistinct initState 1).2.1 (by decide)

/-! ### C6: complete then undo -/

/-- C6: `complete` on a pending task followed by undo restores the flag to
its prior value `false` — in fact it restores the entire state, history
included; and `complete` on an already-completed task pushes no history
entry and changes nothing at all, so no undo entry exists for the no-op
case. -/
theorem complete_then_undo_roundtrip (s : State) (id : Int) (t : Task) :
    (findTask s.list.tasks id = some t → t.completed = false →
        opUndo (opComplete s id) = (s, .undone_complete id)) ∧
    (findTask s.list.tasks id = some t → t.completed = true →
        opComplete s id = s) := by
  constructor
  · intro hf hc
    obtain ⟨i, dsc, c⟩ := t
    simp only at hc
    subst hc
    obtain ⟨pre, post, hl, htid, hpre⟩ := findTask_decomp hf
    simp only at htid
    subst htid
    have hct : completeTasks s.list.tasks i =
        (pre ++ ⟨i, dsc, true⟩ :: post, .toggled) := by
      rw [hl]
      exact completeTasks_found_pending ⟨i, dsc, false⟩ post hpre rfl rfl
    have hopc : opComplete s i =
        ⟨⟨pre ++ ⟨i, dsc, true⟩ :: post, s.list.next_id⟩,
          ⟨.ACTION_COMPLETE, i, none, false⟩ :: s.stack⟩ := by
      simp [opComplete, completeTask, pushAction, hf, hct]
    have hsc : setCompleted (pre ++ ⟨i, dsc, true⟩ :: post) i false =
        (pre ++ ⟨i, dsc, false⟩ :: post, true) :=
      setCompleted_found ⟨i, dsc, true⟩ post hpre rfl
    rw [hopc]
    simp only [opUndo, undoLastAction, hsc]
    rw [← hl]
    rfl
  · intro hf hc
    obtain ⟨pre, post, hl, htid, hpre⟩ := findTask_decomp hf
    have hac : completeTasks s.list.tasks id =
        (s.list.tasks, .already_completed) := by
      rw [hl]
      exact completeTasks_found_completed t post hpre htid hc
    simp [opComplete, completeTask, hac]

/-- Witness for `complete_then_undo_roundtrip`: a one-task pending
store. -/
theorem complete_then_undo_roundtrip_witness :
    opUndo (opComplete (⟨⟨[⟨1, "a", false⟩], 2⟩, []⟩ : State) 1) =
      ((⟨⟨[⟨1, "a", false⟩], 2⟩, []⟩ : State),
        UndoResult.undone_complete 1) :=
  (complete_then_undo_roundtrip ⟨⟨[⟨1, "a", false⟩], 2⟩, []⟩ 1
    ⟨1, "a", false⟩).1 (by decide) rfl

/-! ### C9: inconsistent undo still consumes the action -/

/-- C9: whatever the outcome, an undo on a non-empty history always pops
exactly one entry; and when the popped action is an Add or a Complete
whose task id is no longer in the store, the undo reports an inconsistency
for that id and leaves the task store untouched. -/
theorem undo_inconsistent_consumes (s : State) (a : Action)
    (rest : ActionStack) (hstack : s.stack = a :: rest) :
    ((opUndo s).1.stack = rest) ∧
    ((∀ t ∈ s.list.tasks, t.id ≠ a.task_id) →
      (a.type = .ACTION_ADD →
          opUndo s = (⟨s.list, rest⟩, .inconsistent_add a.task_id)) ∧
      (a.type = .ACTION_COMPLETE →
          opUndo s = (⟨s.list, rest⟩,
            .inconsistent_complete a.task_id))) := by
  obtain ⟨l, stack⟩ := s
  simp only at hstack
  subst hstack
  obtain ⟨type, tid, td, wc⟩ := a
  cases type with
  | ACTION_ADD =>
    constructor
    · simp only [opUndo, undoLastAction]
      cases hr : (removeTasks l.tasks tid).2 <;> simp [hr]
    · intro h
      constructor
      · intro hh2
        have hrm : removeTasks l.tasks tid = (l.tasks, none) :=
          removeTasks_eq_none h
        simp [opUndo, undoLastAction, hrm]
      · intro hh
        simp at hh
  | ACTION_COMPLETE =>
    constructor
    · simp only [opUndo, undoLastAction]
      split <;> rfl
    · intro h
      constructor
      · intro hh
        simp at hh
      · intro hh2
        have hsc : setCompleted l.tasks tid wc = (l.tasks, false) :=
          setCompleted_eq_not_found h
        simp [opUndo, undoLastAction, hsc]
  | ACTION_REMOVE =>
    refine ⟨rfl, fun h => ⟨?_, ?_⟩⟩
    · intro hh
      simp at hh
    · intro hh
      simp at hh

/-- Witness for `undo_inconsistent_consumes`: undoing an `ACTION_ADD`
record for id 5 on an empty store. -/
theorem undo_inconsistent_consumes_witness :
    opUndo (⟨⟨[], 1⟩, [⟨ActionType.ACTION_ADD, 5, none, false⟩]⟩ :
        State) =
      (⟨⟨[], 1⟩, []⟩, UndoResult.inconsistent_add 5) :=
  ((undo_inconsistent_consumes
      ⟨⟨[], 1⟩, [⟨ActionType.ACTION_ADD, 5, none, false⟩]⟩
      ⟨ActionType.ACTION_ADD, 5, none, false⟩ [] rfl).2
    (by decide)).1 rfl

/-! ### C8: remove detaches the first match or reports not-found -/

/-- C8: if no task carries the id, `removeTask` reports not-found and
leaves the store unchanged; if the list splits as `pre ++ t :: post` with
`t` the first task carrying the id, `removeTask` detaches exactly `t`,
leaving `pre ++ post` (the relative order of the remaining tasks), and
returns `t`'s snapshot; in particular whenever some task carries the id a
snapshot with that id is returned. -/
theorem remove_found_or_not (l : TaskList) (id : Int) :
    ((∀ t ∈ l.tasks, t.id ≠ id) → removeTask l id = (l, none)) ∧
    (∀ pre t post, l.tasks = pre ++ t :: post → t.id = id →
      (∀ u ∈ pre, u.id ≠ id) →
      removeTask l id = (⟨pre ++ post, l.next_id⟩, some t)) ∧
    (∀ t ∈ l.tasks, t.id = id →
      ∃ r, (removeTask l id).2 = some r ∧ r.id = id) := by
  refine ⟨?_, ?_, ?_⟩
  · intro h
    simp [removeTask, removeTasks_eq_none h]
  · intro pre t post hl htid hpre
    simp [removeTask, hl, removeTasks_found t post hpre htid]
  · intro t ht htid
    obtain ⟨pre, r, post, hl, hrid, hpre, _⟩ := mem_decomp ht
    have hpre2 : ∀ u ∈ pre, u.id ≠ id := by
      intro u hu
      rw [← htid]
      exact hpre u hu
    have hrm : removeTasks l.tasks id = (pre ++ post, some r) := by
      rw [hl]
      exact removeTasks_found r post hpre2 (by rw [hrid, htid])
    exact ⟨r, by simp [removeTask, hrm], by rw [hrid, htid]⟩

/-- Witness for `remove_found_or_not`: removing an absent id. -/
theorem remove_found_or_not_witness :
    removeTask (⟨[⟨1, "a", false⟩], 2⟩ : TaskList) 7 =
      ((⟨[⟨1, "a", false⟩], 2⟩ : TaskList), none) :=
  (remove_found_or_not ⟨[⟨1, "a", false⟩], 2⟩ 7).1 (by decide)

end Tarefa
